import Mathlib

/-!
Verification of the sodiumoxide password-hashing module
(`crypto_pwhash_scryptsalsa208sha256`) and the generic hash wrapper macro.

The Rust crate is a thin wrapper: the memory-hard scrypt engine, the
verifier-string codec and the fixed-output hash primitive live behind a
foreign-call boundary.  Following the specification (sections 4.1-4.7),
the missing native parts are modelled here from the spec text; the parts
that are present in the Rust source (`gen_salt`, `derive_key`, `pwhash`,
`pwhash_verify`, the `hash_module` macro body) are embedded directly.

Machine bytes are modelled as `Nat` kept below 256 with explicit `% 256`,
and 32-bit words as `Nat` kept below `2 ^ 32` with explicit `% 2 ^ 32`.
The external random source is modelled as an explicit stream parameter,
and the external keyed-hash primitive as an explicit function parameter.
-/

namespace Sodium

/-- Number of bytes in a salt (`crypto_pwhash_scryptsalsa208sha256_SALTBYTES`). -/
def SALTBYTES : Nat := 32

/-- Number of bytes in a verifier string (`crypto_pwhash_scryptsalsa208sha256_STRBYTES`). -/
def STRBYTES : Nat := 102

/-- Number of bytes of the digest stored inside a verifier string. -/
def DIGESTBYTES : Nat := 32

/-- A byte sequence is well formed when every element is an 8-bit value. -/
def bytesOk (l : List Nat) : Prop := ∀ b ∈ l, b < 256

instance (l : List Nat) : Decidable (bytesOk l) := by
  unfold bytesOk; infer_instance

/-! ### Base64-style codec (VerifierCodec, spec 4.6)

Modelled from the spec: the native codec encodes salt and digest with a
crypt-style base64 alphabet, three bytes to four characters, little endian
inside each group.  `enc64v` and `dec64v` work on the 6-bit values; the
character alphabet is applied on top of them. -/

/-- Modelled from the spec: base64-style encoding of a byte list into 6-bit
values, three bytes per group of four values, little endian. -/
def enc64v : List Nat → List Nat
  | [] => []
  | [b0] => [b0 % 64, b0 / 64]
  | [b0, b1] =>
    let v := b0 + 256 * b1
    [v % 64, v / 64 % 64, v / 4096]
  | b0 :: b1 :: b2 :: rest =>
    let v := b0 + 256 * b1 + 65536 * b2
    v % 64 :: v / 64 % 64 :: v / 4096 % 64 :: v / 262144 :: enc64v rest

/-- Modelled from the spec: inverse of `enc64v` on 6-bit values; fails on a
leftover group of a single value (no byte list encodes to it). -/
def dec64v : List Nat → Option (List Nat)
  | [] => some []
  | [_] => none
  | [c0, c1] => some [(c0 + 64 * c1) % 256]
  | [c0, c1, c2] =>
    let v := c0 + 64 * c1 + 4096 * c2
    some [v % 256, v / 256 % 256]
  | c0 :: c1 :: c2 :: c3 :: rest =>
    let v := c0 + 64 * c1 + 4096 * c2 + 262144 * c3
    (dec64v rest).map (fun ds => v % 256 :: v / 256 % 256 :: v / 65536 % 256 :: ds)

theorem dec64v_enc64v (bs : List Nat) (h : bytesOk bs) : dec64v (enc64v bs) = some bs := by
  induction bs using enc64v.induct with
  | case1 => rfl
  | case2 b0 =>
    have hb0 : b0 < 256 := h b0 (by simp)
    simp only [enc64v, dec64v, Option.some.injEq, List.cons.injEq, and_true]
    omega
  | case3 b0 b1 =>
    have hb0 : b0 < 256 := h b0 (by simp)
    have hb1 : b1 < 256 := h b1 (by simp)
    simp only [enc64v, dec64v, Option.some.injEq, List.cons.injEq, and_true]
    constructor <;> omega
  | case4 b0 b1 b2 rest ih =>
    have hb0 : b0 < 256 := h b0 (by simp)
    have hb1 : b1 < 256 := h b1 (by simp)
    have hb2 : b2 < 256 := h b2 (by simp)
    have hrest : bytesOk rest := fun b hb => h b (by simp [hb])
    simp only [enc64v, dec64v, ih hrest, Option.map_some, Option.map_some,
      Option.some.injEq, List.cons.injEq, and_true, Option.map]
    refine ⟨by omega, by omega, by omega⟩

theorem enc64v_length (bs : List Nat) :
    (enc64v bs).length =
      4 * (bs.length / 3) + (if bs.length % 3 = 0 then 0 else bs.length % 3 + 1) := by
  induction bs using enc64v.induct with
  | case1 => rfl
  | case2 b0 => simp [enc64v]
  | case3 b0 b1 => simp [enc64v]
  | case4 b0 b1 b2 rest ih =>
    simp only [enc64v, List.length_cons, ih]
    have h3 : (rest.length + 1 + 1 + 1) = rest.length + 3 := by omega
    rw [h3]
    have : (rest.length + 3) / 3 = rest.length / 3 + 1 := by omega
    have h2 : (rest.length + 3) % 3 = rest.length % 3 := by omega
    rw [this, h2]
    omega

/-! ### StreamMixCore (spec 4.1): Salsa20/8 on a 64-byte block

Modelled from the spec: the stream-cipher mixing core missing from the
Rust sources.  A block is 16 little-endian 32-bit words, each kept below
`2 ^ 32` by explicit reduction. -/

/-- 32-bit left rotation, modelled on `Nat` with explicit reduction. -/
def rotl32 (a b : Nat) : Nat := ((a <<< b) ||| (a >>> (32 - b))) % 4294967296

/-- Modelled from the spec: the Salsa20 quarter round (add-rotate-xor). -/
def quarter (y0 y1 y2 y3 : Nat) : Nat × Nat × Nat × Nat :=
  let z1 := y1 ^^^ rotl32 ((y0 + y3) % 4294967296) 7
  let z2 := y2 ^^^ rotl32 ((z1 + y0) % 4294967296) 9
  let z3 := y3 ^^^ rotl32 ((z2 + z1) % 4294967296) 13
  let z0 := y0 ^^^ rotl32 ((z3 + z2) % 4294967296) 18
  (z0, z1, z2, z3)

/-- Modelled from the spec: one Salsa20 double round (a column round
followed by a row round) over the 4x4 word matrix. -/
def doubleround (l : List Nat) : List Nat :=
  match l with
  | [x0, x1, x2, x3, x4, x5, x6, x7, x8, x9, x10, x11, x12, x13, x14, x15] =>
    let (y0, y4, y8, y12) := quarter x0 x4 x8 x12
    let (y5, y9, y13, y1) := quarter x5 x9 x13 x1
    let (y10, y14, y2, y6) := quarter x10 x14 x2 x6
    let (y15, y3, y7, y11) := quarter x15 x3 x7 x11
    let (z0, z1, z2, z3) := quarter y0 y1 y2 y3
    let (z5, z6, z7, z4) := quarter y5 y6 y7 y4
    let (z10, z11, z8, z9) := quarter y10 y11 y8 y9
    let (z15, z12, z13, z14) := quarter y15 y12 y13 y14
    [z0, z1, z2, z3, z4, z5, z6, z7, z8, z9, z10, z11, z12, z13, z14, z15]
  | other => other

/-- Modelled from the spec: Salsa20/8, four double rounds followed by the
word-wise addition of the input, each word reduced modulo `2 ^ 32`. -/
def salsa20_8 (b : List Nat) : List Nat :=
  List.zipWith (fun a c => (a + c) % 4294967296) b (doubleround^[4] b)

/-! ### BlockMix (spec 4.2) -/

/-- Word-wise xor of two 64-byte blocks. -/
def xorBlock (a b : List Nat) : List Nat := List.zipWith (· ^^^ ·) a b

/-- The zero 64-byte block, used where the native code indexes a buffer
that the model accesses with a default. -/
def zeroBlock : List Nat := List.replicate 16 0

/-- Modelled from the spec: the running pass of BlockMix, xoring each input
block into the running 64-byte state and applying the mixing core. -/
def blockmixLoop (Y : List Nat) : List (List Nat) → List (List Nat)
  | [] => []
  | b :: rest =>
    let Y2 := salsa20_8 (xorBlock Y b)
    Y2 :: blockmixLoop Y2 rest

/-- Even-indexed elements of a list. -/
def evens : List α → List α
  | [] => []
  | [a] => [a]
  | a :: _ :: rest => a :: evens rest

/-- Odd-indexed elements of a list. -/
def odds : List α → List α
  | [] => []
  | [_] => []
  | _ :: b :: rest => b :: odds rest

/-- Modelled from the spec: BlockMix over a sequence of 2r 64-byte blocks;
the running state starts from the last input block, and the outputs are
de-interleaved so even-indexed results precede odd-indexed results. -/
def blockmix (B : List (List Nat)) : List (List Nat) :=
  let ys := blockmixLoop (B.getLastD zeroBlock) B
  evens ys ++ odds ys

/-! ### ROMix (spec 4.3) -/

/-- Little-endian value of a word list: word i contributes with weight
`2 ^ (32 * i)`. -/
def leWords : List Nat → Nat
  | [] => 0
  | w :: rest => w + 4294967296 * leWords rest

/-- Modelled from the spec: integerify reads the last 64-byte block of a
block sequence as a little-endian integer. -/
def integerify (B : List (List Nat)) : Nat := leWords (B.getLastD zeroBlock)

/-- Block-wise xor of two block sequences. -/
def xorSeq (a b : List (List Nat)) : List (List Nat) := List.zipWith xorBlock a b

/-- Modelled from the spec: the sequential fill phase of ROMix, written as
the native loop runs it: push the current state into the scratch array,
then advance the state with BlockMix; returns the scratch array and the
state after the fill. -/
def fillLoop : Nat → List (List Nat) → List (List (List Nat)) × List (List Nat)
  | 0, X => ([], X)
  | n + 1, X =>
    let r := fillLoop n (blockmix X)
    (X :: r.1, r.2)

/-- Modelled from the spec: the data-dependent second phase of ROMix, also
written as the native loop runs it: n times, xor the scratch entry selected
by integerify into the state and apply BlockMix. -/
def mixLoop (V : List (List (List Nat))) (N : Nat) : Nat → List (List Nat) → List (List Nat)
  | 0, X => X
  | n + 1, X => mixLoop V N n (blockmix (xorSeq X (V.getD (integerify X % N) [])))

/-- Modelled from the spec: ROMix, the memory-hard engine, as the native
code structures it (fill loop, then mix loop over the scratch array). -/
def romix (B : List (List Nat)) (N : Nat) : List (List Nat) :=
  let fr := fillLoop N B
  mixLoop fr.1 N N fr.2

/-- The ROMix algorithm exactly as the spec states it: a scratch array V
with V 0 = input and V i = blockmix (V (i-1)), then X = blockmix (V (N-1)),
then N iterations of X := blockmix (X xor V (integerify X mod N)). -/
def romixSpec (B : List (List Nat)) (N : Nat) : List (List Nat) :=
  let V := (List.range N).map (fun i => blockmix^[i] B)
  let X := blockmix (V.getD (N - 1) B)
  (List.range N).foldl (fun X _ => blockmix (xorSeq X (V.getD (integerify X % N) []))) X

theorem fillLoop_eq (n : Nat) (X : List (List Nat)) :
    fillLoop n X = ((List.range n).map (fun i => blockmix^[i] X), blockmix^[n] X) := by
  induction n generalizing X with
  | zero => simp [fillLoop]
  | succ n ih =>
    simp only [fillLoop, ih (blockmix X), List.range_succ_eq_map, List.map_cons,
      List.map_map, Function.iterate_zero, id_eq, Prod.mk.injEq]
    constructor
    · have he : (fun i => blockmix^[i] (blockmix X)) = ((fun i => blockmix^[i] X) ∘ Nat.succ) := by
        funext i
        simp [Function.comp, Function.iterate_succ_apply]
      rw [he]
    · exact (Function.iterate_succ_apply blockmix n X).symm

theorem mixLoop_eq_foldl (V : List (List (List Nat))) (N n : Nat) (X : List (List Nat)) :
    mixLoop V N n X =
      (List.range n).foldl
        (fun X _ => blockmix (xorSeq X (V.getD (integerify X % N) []))) X := by
  induction n generalizing X with
  | zero => simp [mixLoop]
  | succ n ih =>
    rw [List.range_succ_eq_map]
    simp only [mixLoop, List.foldl_cons, List.foldl_map, ih]

/-- C8: ROMix follows exactly the specified algorithm: for every input
sequence of 64-byte blocks and every cost N at least 1, the operational
ROMix (scratch fill loop, then N data-dependent mix steps) equals the
declarative algorithm of the spec: V 0 = input, V i = blockmix (V (i-1))
for i in 1..N, X = blockmix (V (N-1)), then N iterations of
X := blockmix (X xor V (integerify X mod N)). -/
theorem romix_follows_spec (B : List (List Nat)) (N : Nat) (hN : 1 ≤ N) :
    romix B N = romixSpec B N := by
  have h1 : N - 1 < N := by omega
  have hgetD : ((List.range N).map (fun i => blockmix^[i] B)).getD (N - 1) B
      = blockmix^[N - 1] B := by
    rw [List.getD_eq_getElem?_getD, List.getElem?_map, List.getElem?_range h1]
    rfl
  simp only [romix, romixSpec, fillLoop_eq, mixLoop_eq_foldl, hgetD]
  rw [← Function.iterate_succ_apply' blockmix (N - 1) B]
  have h2 : (N - 1).succ = N := by omega
  rw [h2]

theorem romix_follows_spec_witness :
    1 ≤ 2 ∧ romix [zeroBlock] 2 = romixSpec [zeroBlock] 2 :=
  ⟨by decide, romix_follows_spec [zeroBlock] 2 (by decide)⟩

/-! ### StretchPrimitive (spec 4.4)

Modelled from the spec: a keyed-hash based key derivation (the native
PBKDF2-HMAC-SHA-256).  The keyed hash itself is an external collaborator
(spec section 1), so it is taken as an explicit function parameter; its
output is coerced to a fixed 32-byte digest exactly as the native code
writes it into a fixed-size output buffer. -/

/-- Coerces the output of the external keyed hash to exactly 32 bytes,
mirroring the fixed-size pre-zeroed buffer the native code fills. -/
def prfBytes (prf : List Nat → List Nat → List Nat) (key msg : List Nat) : List Nat :=
  ((prf key msg).map (· % 256) ++ List.replicate 32 0).take 32

/-- Big-endian 4-byte encoding of a block index. -/
def be32 (n : Nat) : List Nat :=
  [n / 16777216 % 256, n / 65536 % 256, n / 256 % 256, n % 256]

/-- Modelled from the spec: the iterate-and-xor-fold loop of one output
block of the stretch primitive. -/
def pbkdf2Iter (prf : List Nat → List Nat → List Nat) (password : List Nat) :
    Nat → List Nat → List Nat → List Nat
  | 0, _, acc => acc
  | k + 1, U, acc =>
    let U2 := prfBytes prf password U
    pbkdf2Iter prf password k U2 (List.zipWith (· ^^^ ·) acc U2)

/-- Modelled from the spec: one output block of the stretch primitive, a
keyed hash of (salt, block index) iterated and xor-folded. -/
def pbkdf2Block (prf : List Nat → List Nat → List Nat)
    (password salt : List Nat) (iters i : Nat) : List Nat :=
  let U1 := prfBytes prf password (salt ++ be32 i)
  pbkdf2Iter prf password (iters - 1) U1 U1

/-- Modelled from the spec: the stretch primitive, concatenating output
blocks and truncating to the requested length. -/
def pbkdf2 (prf : List Nat → List Nat → List Nat)
    (password salt : List Nat) (iters outlen : Nat) : List Nat :=
  (((List.range ((outlen + 31) / 32)).map
    (fun i => pbkdf2Block prf password salt iters (i + 1))).flatten).take outlen

theorem prfBytes_length (prf : List Nat → List Nat → List Nat) (key msg : List Nat) :
    (prfBytes prf key msg).length = 32 := by
  simp [prfBytes]

theorem prfBytes_bytesOk (prf : List Nat → List Nat → List Nat) (key msg : List Nat) :
    bytesOk (prfBytes prf key msg) := by
  intro b hb
  have := List.mem_of_mem_take hb
  rcases List.mem_append.1 this with h | h
  · obtain ⟨a, _, rfl⟩ := List.mem_map.1 h
    exact Nat.mod_lt _ (by omega)
  · have := List.eq_of_mem_replicate h
    omega

theorem pbkdf2Iter_length (prf : List Nat → List Nat → List Nat) (password : List Nat)
    (k : Nat) (U acc : List Nat) (h : acc.length = 32) :
    (pbkdf2Iter prf password k U acc).length = 32 := by
  induction k generalizing U acc with
  | zero => simpa [pbkdf2Iter] using h
  | succ k ih =>
    simp only [pbkdf2Iter]
    exact ih _ _ (by simp [List.length_zipWith, h, prfBytes_length])

theorem mem_zipWith_imp {f : Nat → Nat → Nat} {a b : List Nat} {c : Nat}
    (h : c ∈ List.zipWith f a b) : ∃ x ∈ a, ∃ y ∈ b, c = f x y := by
  induction a generalizing b with
  | nil => simp at h
  | cons x xs ih =>
    cases b with
    | nil => simp at h
    | cons y ys =>
      rcases List.mem_cons.1 h with h | h
      · exact ⟨x, by simp, y, by simp, h⟩
      · obtain ⟨u, hu, v, hv, hc⟩ := ih h
        exact ⟨u, by simp [hu], v, by simp [hv], hc⟩

theorem pbkdf2Iter_bytesOk (prf : List Nat → List Nat → List Nat) (password : List Nat)
    (k : Nat) (U acc : List Nat) (h : bytesOk acc) :
    bytesOk (pbkdf2Iter prf password k U acc) := by
  induction k generalizing U acc with
  | zero => simpa [pbkdf2Iter] using h
  | succ k ih =>
    simp only [pbkdf2Iter]
    refine ih _ _ ?_
    intro b hb
    obtain ⟨x, hx, y, hy, rfl⟩ := mem_zipWith_imp hb
    have h1 : x < 256 := h x hx
    have h2 : y < 256 := prfBytes_bytesOk prf password _ y hy
    calc x ^^^ y < 2 ^ 8 := Nat.xor_lt_two_pow h1 h2
    _ = 256 := rfl

theorem pbkdf2Block_length (prf : List Nat → List Nat → List Nat)
    (password salt : List Nat) (iters i : Nat) :
    (pbkdf2Block prf password salt iters i).length = 32 :=
  pbkdf2Iter_length _ _ _ _ _ (prfBytes_length _ _ _)

theorem pbkdf2Block_bytesOk (prf : List Nat → List Nat → List Nat)
    (password salt : List Nat) (iters i : Nat) :
    bytesOk (pbkdf2Block prf password salt iters i) :=
  pbkdf2Iter_bytesOk _ _ _ _ _ (prfBytes_bytesOk _ _ _)

theorem pbkdf2_length (prf : List Nat → List Nat → List Nat)
    (password salt : List Nat) (iters outlen : Nat) :
    (pbkdf2 prf password salt iters outlen).length = outlen := by
  unfold pbkdf2
  rw [List.length_take]
  have hlen : (((List.range ((outlen + 31) / 32)).map
      (fun i => pbkdf2Block prf password salt iters (i + 1))).flatten).length
      = 32 * ((outlen + 31) / 32) := by
    rw [List.length_flatten]
    rw [List.map_map]
    have : (List.length ∘ fun i => pbkdf2Block prf password salt iters (i + 1))
        = fun _ => 32 := by
      funext i
      simp [Function.comp, pbkdf2Block_length]
    rw [this, List.map_const', List.sum_replicate, List.length_range, smul_eq_mul]
    ring
  rw [hlen]
  omega

theorem pbkdf2_bytesOk (prf : List Nat → List Nat → List Nat)
    (password salt : List Nat) (iters outlen : Nat) :
    bytesOk (pbkdf2 prf password salt iters outlen) := by
  intro b hb
  have hb2 := List.mem_of_mem_take hb
  obtain ⟨l, hl, hbl⟩ := List.mem_flatten.1 hb2
  obtain ⟨i, _, rfl⟩ := List.mem_map.1 hl
  exact pbkdf2Block_bytesOk prf password salt iters (i + 1) b hbl

/-! ### ScryptEngine (spec 4.5) -/

/-- Error kinds of the key-derivation engine (spec section 7).  The model
cannot run out of memory, so `resourceExhausted` is never produced, but it
is kept as a distinct error kind exactly as the spec lists it. -/
inductive ScryptErr where
  | invalidParameters
  | resourceExhausted
deriving DecidableEq

/-- Base-2 logarithm with explicit fuel, so that it reduces structurally. -/
def log2A : Nat → Nat → Nat
  | 0, _ => 0
  | fuel + 1, n => if n ≤ 1 then 0 else log2A fuel (n / 2) + 1

/-- Floor of the base-2 logarithm (0 at 0), kernel-evaluable. -/
def log2f (n : Nat) : Nat := log2A n n

theorem log2A_eq_log2 (fuel n : Nat) (h : n ≤ fuel) : log2A fuel n = Nat.log2 n := by
  induction fuel generalizing n with
  | zero =>
    have hn : n = 0 := by omega
    subst hn
    rw [Nat.log2]
    simp [log2A]
  | succ fuel ih =>
    by_cases h1 : n ≤ 1
    · have h0 : ¬ 2 ≤ n := by omega
      rw [Nat.log2]
      simp [log2A, h1, h0]
    · have h2 : 2 ≤ n := by omega
      have h3 : n / 2 ≤ fuel := by omega
      rw [Nat.log2]
      simp [log2A, h1, h2, ih _ h3]

theorem log2f_eq_log2 (n : Nat) : log2f n = Nat.log2 n := log2A_eq_log2 n n (Nat.le_refl n)

theorem log2f_two_pow (k : Nat) : log2f (2 ^ k) = k := by
  rw [log2f_eq_log2, Nat.log2_eq_log_two, Nat.log_pow Nat.one_lt_two]

/-- Modelled from the spec: the parameter validation of the engine
(step 1 of spec 4.5): N a power of two and at least 2, r times p below the
overflow threshold `2 ^ 30`, requested output length positive. -/
def scryptParamsOk (N r p outlen : Nat) : Bool :=
  decide (2 ≤ N) && (N == 2 ^ log2f N) && decide (r * p < 2 ^ 30) && decide (0 < outlen)

/-- Little-endian deserialization of bytes into 32-bit words. -/
def bytesToWords : List Nat → List Nat
  | b0 :: b1 :: b2 :: b3 :: rest =>
    (b0 + 256 * b1 + 65536 * b2 + 16777216 * b3) % 4294967296 :: bytesToWords rest
  | _ => []

/-- Little-endian serialization of 32-bit words into bytes. -/
def wordsToBytes : List Nat → List Nat
  | [] => []
  | w :: rest =>
    w % 256 :: w / 256 % 256 :: w / 65536 % 256 :: w / 16777216 % 256 :: wordsToBytes rest

/-- Reinterpret one 128r-byte lane as 2r 64-byte blocks of 16 words. -/
def laneToBlocks (r : Nat) (lane : List Nat) : List (List Nat) :=
  let ws := bytesToWords lane
  (List.range (2 * r)).map (fun j => (ws.drop (16 * j)).take 16)

/-- Serialize a block sequence back into bytes. -/
def blocksToBytes (bs : List (List Nat)) : List Nat := wordsToBytes bs.flatten

/-- Modelled from the spec: the computation the scrypt engine performs on
validated parameters (steps 2 to 4 of spec 4.5): expand the password and
salt into p independent lanes with the stretch primitive, run ROMix on
each lane, and compress the mixed seed into the requested number of
output bytes. -/
def scryptRun (prf : List Nat → List Nat → List Nat) (password salt : List Nat)
    (N r p outlen : Nat) : List Nat :=
  let seed := pbkdf2 prf password salt 1 (128 * r * p)
  let lanes := (List.range p).map (fun i => (seed.drop (128 * r * i)).take (128 * r))
  let mixed := lanes.map (fun lane => blocksToBytes (romix (laneToBlocks r lane) N))
  pbkdf2 prf password mixed.flatten 1 outlen

/-- Modelled from the spec: the scrypt engine (spec 4.5): validate the
cost parameters, then run the engine computation.  Allocation cannot fail
in the model, so the `resourceExhausted` branch of the native engine is
absent. -/
def scrypt (prf : List Nat → List Nat → List Nat) (password salt : List Nat)
    (N r p outlen : Nat) : Except ScryptErr (List Nat) :=
  if scryptParamsOk N r p outlen then
    Except.ok (scryptRun prf password salt N r p outlen)
  else
    Except.error ScryptErr.invalidParameters

theorem scryptRun_length (prf : List Nat → List Nat → List Nat) (password salt : List Nat)
    (N r p outlen : Nat) : (scryptRun prf password salt N r p outlen).length = outlen :=
  pbkdf2_length _ _ _ _ _

theorem scryptRun_bytesOk (prf : List Nat → List Nat → List Nat) (password salt : List Nat)
    (N r p outlen : Nat) : bytesOk (scryptRun prf password salt N r p outlen) :=
  pbkdf2_bytesOk _ _ _ _ _

/-! ### HashingFacade (spec 4.7, embedded from the Rust source) -/

/-- Modelled from the spec: the fixed formula mapping an operations limit
and a memory limit to the cost parameters (N, r, p); missing from the Rust
sources (it lives behind the foreign-call boundary).  The block size
multiplier is fixed at 8; N is the largest power of two whose scratch
array fits the memory limit; p spends the remaining operations budget,
kept below the overflow threshold. -/
def pickparams (opslimit memlimit : Nat) : Nat × Nat × Nat :=
  let r := 8
  let maxN := memlimit / (r * 128)
  let nlog2 := max 1 (log2f maxN)
  let N := 2 ^ nlog2
  let p := max 1 (min (opslimit / 4 / (N * r)) ((2 ^ 30 - 1) / r))
  (N, r, p)

/-- The `derive_key` entry point of the Rust source: map the limits to cost
parameters and run the engine, collapsing engine failure to `none` exactly
as the Rust wrapper maps a nonzero foreign return code to `None`.  The
requested key length is the length of the Rust output buffer. -/
def derive_key (prf : List Nat → List Nat → List Nat) (keylen : Nat)
    (passwd salt : List Nat) (opslimit memlimit : Nat) : Option (List Nat) :=
  let P := pickparams opslimit memlimit
  match scrypt prf passwd salt P.1 P.2.1 P.2.2 keylen with
  | Except.ok k => some k
  | Except.error _ => none

/-- A trivial stand-in for the external keyed hash, used to instantiate
the hash-parameterized theorems at concrete inputs. -/
def trivPrf : List Nat → List Nat → List Nat := fun _ _ => []

/-! ### VerifierCodec (spec 4.6)

Modelled from the spec: the fixed-capacity ASCII verifier string with
structure prefix, logN character, r and p fields, base64 salt, base64
digest, null terminator. -/

/-- The crypt-style base64 alphabet, as ASCII codes: dot, slash, the
digits, the upper-case letters, the lower-case letters. -/
def itoa64 : List Nat :=
  [46, 47, 48, 49, 50, 51, 52, 53, 54, 55, 56, 57,
   65, 66, 67, 68, 69, 70, 71, 72, 73, 74, 75, 76, 77,
   78, 79, 80, 81, 82, 83, 84, 85, 86, 87, 88, 89, 90,
   97, 98, 99, 100, 101, 102, 103, 104, 105, 106, 107, 108, 109,
   110, 111, 112, 113, 114, 115, 116, 117, 118, 119, 120, 121, 122]

/-- Character of a 6-bit value. -/
def itoa64get (v : Nat) : Nat := itoa64.getD (v % 64) 46

/-- 6-bit value of a character; 64 when the character is not in the
alphabet (the reject marker of the native decoder). -/
def atoi64 (c : Nat) : Nat := itoa64.indexOf c

theorem atoi64_itoa64get : ∀ v < 64, atoi64 (itoa64get v) = v % 64 := by decide

theorem itoa64get_mod (v : Nat) : itoa64get v = itoa64get (v % 64) := by
  simp [itoa64get, Nat.mod_mod_of_dvd]

theorem atoi64_itoa64get_all (v : Nat) : atoi64 (itoa64get v) = v % 64 := by
  rw [itoa64get_mod]
  rw [atoi64_itoa64get (v % 64) (Nat.mod_lt v (by omega))]
  exact Nat.mod_mod_of_dvd v (by omega)

theorem itoa64get_bounds : ∀ v < 64, 0 < itoa64get v ∧ itoa64get v < 128 := by decide

theorem itoa64get_bounds_all (v : Nat) : 0 < itoa64get v ∧ itoa64get v < 128 := by
  rw [itoa64get_mod]
  exact itoa64get_bounds (v % 64) (Nat.mod_lt v (by omega))

/-- Character encoding of a byte list. -/
def encA (bs : List Nat) : List Nat := (enc64v bs).map itoa64get

/-- Five-character little-endian field holding a value below `2 ^ 30`. -/
def enc30 (x : Nat) : List Nat := (List.range 5).map (fun i => itoa64get (x / 64 ^ i % 64))

/-- Little-endian value of a character field. -/
def dec30 (cs : List Nat) : Nat := cs.foldr (fun c acc => atoi64 c + 64 * acc) 0

/-- All characters of a field belong to the alphabet. -/
def charsOk (cs : List Nat) : Bool := cs.all (fun c => atoi64 c < 64)

/-- Modelled from the spec: encode the cost parameters, salt and digest
into the fixed-capacity null-terminated verifier string: prefix, logN
character, r field, p field, base64 salt, separator, base64 digest, null
padding up to the buffer capacity. -/
def encodeVerifier (N r p : Nat) (salt digest : List Nat) : List Nat :=
  let fields := [36, 55, 36] ++ [itoa64get (log2f N)] ++ enc30 r ++ enc30 p
    ++ encA salt ++ [36] ++ encA digest
  fields ++ List.replicate (STRBYTES - fields.length) 0

/-- Modelled from the spec: decode a verifier string, rejecting a wrong
length, a wrong prefix, characters outside the alphabet, a missing
separator or a missing null terminator. -/
def decodeVerifier (s : List Nat) : Option (Nat × Nat × Nat × List Nat × List Nat) :=
  let s1 := s.drop 3
  let nchl := s1.take 1
  let s2 := s1.drop 1
  let rcs := s2.take 5
  let s3 := s2.drop 5
  let pcs := s3.take 5
  let s4 := s3.drop 5
  let scs := s4.take 43
  let s5 := s4.drop 43
  let s6 := s5.drop 1
  let dcs := s6.take 43
  if (s.length == STRBYTES) && (s.take 3 == [36, 55, 36]) && charsOk nchl
      && charsOk rcs && charsOk pcs && charsOk scs && charsOk dcs
      && (s5.take 1 == [36]) && (s6.drop 43 == [0]) then
    match dec64v (scs.map atoi64), dec64v (dcs.map atoi64) with
    | some saltB, some digB =>
      some (2 ^ atoi64 (nchl.getD 0 0), dec30 rcs, dec30 pcs, saltB, digB)
    | _, _ => none
  else none

/-- C6: whenever N is not a power of two or is below 2, or r times p
reaches the overflow threshold, or the requested output length is 0, the
engine fails with the InvalidParameters error instead of producing
output. -/
theorem scrypt_invalid_params (prf : List Nat → List Nat → List Nat)
    (pw salt : List Nat) (N r p outlen : Nat)
    (h : (¬ ∃ k, N = 2 ^ k) ∨ N < 2 ∨ 2 ^ 30 ≤ r * p ∨ outlen = 0) :
    scrypt prf pw salt N r p outlen = Except.error ScryptErr.invalidParameters := by
  have hbad : scryptParamsOk N r p outlen = false := by
    unfold scryptParamsOk
    simp
    intro h1 h2 h3
    rcases h with hh | hh | hh | hh
    · exact absurd ⟨log2f N, h2⟩ hh
    · omega
    · omega
    · omega
  unfold scrypt
  rw [hbad]
  simp

theorem scrypt_invalid_params_witness :
    ((¬ ∃ k, 3 = 2 ^ k) ∨ 3 < 2 ∨ 2 ^ 30 ≤ 1 * 1 ∨ 32 = 0) ∧
      scrypt trivPrf [] [] 3 1 1 32 = Except.error ScryptErr.invalidParameters :=
  ⟨Or.inl (fun ⟨k, hk⟩ => by
    match k with
    | 0 => omega
    | 1 => omega
    | k + 2 =>
      have h4 : 2 ^ 2 ≤ 2 ^ (k + 2) := Nat.pow_le_pow_right (by omega) (by omega)
      omega),
   scrypt_invalid_params trivPrf [] [] 3 1 1 32 (Or.inl (fun ⟨k, hk⟩ => by
    match k with
    | 0 => omega
    | 1 => omega
    | k + 2 =>
      have h4 : 2 ^ 2 ≤ 2 ^ (k + 2) := Nat.pow_le_pow_right (by omega) (by omega)
      omega))⟩

/-- C3: derive_key is deterministic: two calls with identical password,
salt, operations limit and memory limit (and identical output size and
external hash primitive) yield identical derived keys. -/
theorem derive_key_deterministic (prf : List Nat → List Nat → List Nat)
    (keylen₁ keylen₂ : Nat) (pw₁ pw₂ s₁ s₂ : List Nat) (o₁ o₂ m₁ m₂ : Nat)
    (hk : keylen₁ = keylen₂) (hp : pw₁ = pw₂) (hs : s₁ = s₂)
    (ho : o₁ = o₂) (hm : m₁ = m₂) :
    derive_key prf keylen₁ pw₁ s₁ o₁ m₁ = derive_key prf keylen₂ pw₂ s₂ o₂ m₂ := by
  subst hk hp hs ho hm
  rfl

theorem derive_key_deterministic_witness :
    ([] : List Nat) = [] ∧
      derive_key trivPrf 32 [] [] 1 1 = derive_key trivPrf 32 [] [] 1 1 :=
  ⟨rfl, derive_key_deterministic trivPrf 32 32 [] [] [] [] 1 1 1 1 rfl rfl rfl rfl rfl⟩

/-- Constant-time comparison (spec design note in section 9): accumulate
the bitwise or of the xor of all byte pairs and branch only on the final
accumulator, together with the length check. -/
def ctCompare (a b : List Nat) : Bool :=
  (a.length == b.length) && ((List.zipWith (fun x y => x ^^^ y) a b).foldl (· ||| ·) 0 == 0)

/-- The `pwhash` entry point of the Rust source: pick the cost parameters
from the limits, derive the digest, encode the verifier string.  The
freshly generated random salt of the native code is an explicit argument;
the native string writer fails when the logN character would leave its
one-character field, which the model mirrors with the explicit guard. -/
def pwhash (prf : List Nat → List Nat → List Nat) (passwd salt : List Nat)
    (opslimit memlimit : Nat) : Option (List Nat) :=
  let P := pickparams opslimit memlimit
  if log2f P.1 < 64 then
    match scrypt prf passwd salt P.1 P.2.1 P.2.2 DIGESTBYTES with
    | Except.ok digest => some (encodeVerifier P.1 P.2.1 P.2.2 salt digest)
    | Except.error _ => none
  else none

/-- The `pwhash_verify` entry point of the Rust source, with the native
verifier modelled from the spec (4.7): decode the verifier string,
returning false rather than an error on malformed input, recompute the
digest with the embedded parameters and salt, and compare in constant
time. -/
def pwhash_verify (prf : List Nat → List Nat → List Nat) (str passwd : List Nat) : Bool :=
  match decodeVerifier str with
  | none => false
  | some (N, r, p, saltB, digB) =>
    match scrypt prf passwd saltB N r p DIGESTBYTES with
    | Except.error _ => false
    | Except.ok d => ctCompare d digB

/-- The cost limits under which the native `pwhash` succeeds: the picked
parameters pass the engine validation and the logN character fits its
field. -/
def strLimitsOk (opslimit memlimit : Nat) : Bool :=
  let P := pickparams opslimit memlimit
  scryptParamsOk P.1 P.2.1 P.2.2 DIGESTBYTES && decide (log2f P.1 < 64)

theorem or_eq_zero_parts (a b : Nat) (h : a ||| b = 0) : a = 0 ∧ b = 0 := by
  have hab : ∀ i, a.testBit i = false ∧ b.testBit i = false := by
    intro i
    have h2 := congrArg (fun x => Nat.testBit x i) h
    simp only [Nat.testBit_lor, Nat.zero_testBit, Bool.or_eq_false_iff] at h2
    exact h2
  exact ⟨Nat.zero_of_testBit_eq_false (fun i => (hab i).1),
    Nat.zero_of_testBit_eq_false (fun i => (hab i).2)⟩

theorem foldl_or_eq_zero (l : List Nat) (acc : Nat) :
    l.foldl (· ||| ·) acc = 0 ↔ acc = 0 ∧ ∀ x ∈ l, x = 0 := by
  induction l generalizing acc with
  | nil => simp [List.foldl_nil]
  | cons x xs ih =>
    simp only [List.foldl_cons, ih, List.mem_cons]
    constructor
    · rintro ⟨h1, h2⟩
      have hx := or_eq_zero_parts acc x h1
      exact ⟨hx.1, fun y hy => hy.elim (fun he => he ▸ hx.2) (h2 y)⟩
    · rintro ⟨h1, h2⟩
      refine ⟨?_, fun y hy => h2 y (Or.inr hy)⟩
      rw [h1, h2 x (Or.inl rfl)]
      rfl

theorem ctCompare_eq_true_iff (a b : List Nat) : ctCompare a b = true ↔ a = b := by
  unfold ctCompare
  simp only [Bool.and_eq_true, beq_iff_eq]
  constructor
  · rintro ⟨hlen, hz⟩
    rw [foldl_or_eq_zero] at hz
    have hall := hz.2
    clear hz
    induction a generalizing b with
    | nil =>
      cases b with
      | nil => rfl
      | cons y ys => simp at hlen
    | cons x xs ih =>
      cases b with
      | nil => simp at hlen
      | cons y ys =>
        have hx : x ^^^ y = 0 := hall _ (by simp [List.zipWith_cons_cons])
        have hxy : x = y := by
          have := Nat.xor_eq_zero.1 hx
          exact this
        have hrest : xs = ys := by
          refine ih ys (by simpa using hlen) ?_
          intro z hz2
          exact hall z (by simp [List.zipWith_cons_cons, hz2])
        rw [hxy, hrest]
  · rintro rfl
    refine ⟨rfl, ?_⟩
    rw [foldl_or_eq_zero]
    refine ⟨rfl, fun x hx => ?_⟩
    rw [List.zipWith_same] at hx
    obtain ⟨u, _, rfl⟩ := List.mem_map.1 hx
    exact Nat.xor_self u

theorem enc64v_all_lt (bs : List Nat) (h : bytesOk bs) : ∀ v ∈ enc64v bs, v < 64 := by
  induction bs using enc64v.induct with
  | case1 => simp [enc64v]
  | case2 b0 =>
    have hb0 : b0 < 256 := h b0 (by simp)
    intro v hv
    rcases List.mem_cons.1 hv with rfl | hv
    · omega
    · simp at hv
      omega
  | case3 b0 b1 =>
    have hb0 : b0 < 256 := h b0 (by simp)
    have hb1 : b1 < 256 := h b1 (by simp)
    intro v hv
    simp only [enc64v, List.mem_cons, List.not_mem_nil, or_false] at hv
    rcases hv with rfl | rfl | rfl <;> omega
  | case4 b0 b1 b2 rest ih =>
    have hb0 : b0 < 256 := h b0 (by simp)
    have hb1 : b1 < 256 := h b1 (by simp)
    have hb2 : b2 < 256 := h b2 (by simp)
    have hrest : bytesOk rest := fun b hb => h b (by simp [hb])
    intro v hv
    simp only [enc64v, List.mem_cons] at hv
    rcases hv with rfl | rfl | rfl | rfl | hv
    · omega
    · omega
    · omega
    · omega
    · exact ih hrest v hv

theorem encA_length (bs : List Nat) (h : bs.length = 32) : (encA bs).length = 43 := by
  rw [encA, List.length_map, enc64v_length, h]
  norm_num

theorem enc30_length (x : Nat) : (enc30 x).length = 5 := by
  simp [enc30]

theorem encA_map_atoi64 (bs : List Nat) (h : bytesOk bs) :
    (encA bs).map atoi64 = enc64v bs := by
  rw [encA, List.map_map]
  have : ∀ v ∈ enc64v bs, (atoi64 ∘ itoa64get) v = id v := by
    intro v hv
    have hlt := enc64v_all_lt bs h v hv
    simp [Function.comp, atoi64_itoa64get_all, Nat.mod_eq_of_lt hlt]
  rw [List.map_congr_left this, List.map_id]

theorem charsOk_encA (bs : List Nat) : charsOk (encA bs) = true := by
  rw [charsOk, List.all_eq_true]
  intro c hc
  obtain ⟨v, _, rfl⟩ := List.mem_map.1 hc
  simp [atoi64_itoa64get_all]
  omega

theorem charsOk_enc30 (x : Nat) : charsOk (enc30 x) = true := by
  rw [charsOk, List.all_eq_true]
  intro c hc
  obtain ⟨v, _, rfl⟩ := List.mem_map.1 hc
  simp [atoi64_itoa64get_all]
  omega

theorem dec30_enc30 (x : Nat) (h : x < 2 ^ 30) : dec30 (enc30 x) = x := by
  have h5 : List.range 5 = [0, 1, 2, 3, 4] := rfl
  simp only [enc30, dec30, h5, List.map_cons, List.map_nil, List.foldr_cons,
    List.foldr_nil, atoi64_itoa64get_all]
  norm_num
  omega

theorem decodeVerifier_parts (ch : Nat) (R P S D : List Nat)
    (hR : R.length = 5) (hP : P.length = 5) (hS : S.length = 43) (hD : D.length = 43)
    (hch : atoi64 ch < 64) (hcR : charsOk R = true) (hcP : charsOk P = true)
    (hcS : charsOk S = true) (hcD : charsOk D = true) :
    decodeVerifier (36 :: 55 :: 36 :: ch :: (R ++ (P ++ (S ++ (36 :: (D ++ [0])))))) =
      (match dec64v (S.map atoi64), dec64v (D.map atoi64) with
      | some saltB, some digB => some (2 ^ atoi64 ch, dec30 R, dec30 P, saltB, digB)
      | _, _ => none) := by
  have h1 : (36 :: 55 :: 36 :: ch :: (R ++ (P ++ (S ++ (36 :: (D ++ [0])))))).length = 102 := by
    simp [hR, hP, hS, hD]
  have hone : charsOk [ch] = true := by simp [charsOk, hch]
  unfold decodeVerifier
  simp only [List.drop_succ_cons, List.drop_zero, List.take_succ_cons, List.take_zero]
  rw [List.take_left' hR, List.drop_left' hR, List.take_left' hP, List.drop_left' hP,
    List.take_left' hS, List.drop_left' hS]
  simp only [List.drop_succ_cons, List.drop_zero, List.take_succ_cons, List.take_zero]
  rw [List.take_left' hD, List.drop_left' hD, h1]
  simp [STRBYTES, hone, hcR, hcP, hcS, hcD]

theorem encodeVerifier_normal (n r p : Nat) (salt digest : List Nat)
    (hs : salt.length = 32) (hd : digest.length = 32) :
    encodeVerifier (2 ^ n) r p salt digest =
      36 :: 55 :: 36 :: itoa64get n ::
        (enc30 r ++ (enc30 p ++ (encA salt ++ (36 :: (encA digest ++ [0]))))) := by
  have hflen : ([36, 55, 36] ++ [itoa64get n] ++ enc30 r ++ enc30 p ++ encA salt
      ++ [36] ++ encA digest).length = 101 := by
    simp [enc30_length, encA_length salt hs, encA_length digest hd]
  simp only [encodeVerifier]
  rw [log2f_two_pow, hflen]
  have h2 : STRBYTES - 101 = 1 := by norm_num [STRBYTES]
  rw [h2, List.replicate_one]
  simp [List.append_assoc]

theorem decodeVerifier_encodeVerifier (n r p : Nat) (salt digest : List Nat)
    (hn : n < 64) (hr : r < 2 ^ 30) (hp : p < 2 ^ 30)
    (hs : salt.length = 32) (hsb : bytesOk salt)
    (hd : digest.length = 32) (hdb : bytesOk digest) :
    decodeVerifier (encodeVerifier (2 ^ n) r p salt digest) =
      some (2 ^ n, r, p, salt, digest) := by
  have henc := encodeVerifier_normal n r p salt digest hs hd
  have hchn : atoi64 (itoa64get n) = n := by
    rw [atoi64_itoa64get_all]
    exact Nat.mod_eq_of_lt hn
  rw [henc, decodeVerifier_parts _ _ _ _ _ (enc30_length r) (enc30_length p)
    (encA_length _ hs) (encA_length _ hd) (by rw [hchn]; omega)
    (charsOk_enc30 r) (charsOk_enc30 p) (charsOk_encA salt) (charsOk_encA digest)]
  rw [encA_map_atoi64 _ hsb, encA_map_atoi64 _ hdb, dec64v_enc64v _ hsb, dec64v_enc64v _ hdb]
  simp only []
  rw [dec30_enc30 r hr, dec30_enc30 p hp, hchn]

/-- C2: pwhash_verify is a total boolean function of the verifier string
and password; it returns true exactly when the string decodes and the
recomputed digest matches, so every failure path, a parse failure as much
as a wrong password, collapses to false and no error value escapes. -/
theorem pwhash_verify_total (prf : List Nat → List Nat → List Nat) (str pw : List Nat) :
    pwhash_verify prf str pw = true ↔
      ∃ N r p saltB digB, decodeVerifier str = some (N, r, p, saltB, digB) ∧
        scrypt prf pw saltB N r p DIGESTBYTES = Except.ok digB := by
  unfold pwhash_verify
  cases hdec : decodeVerifier str with
  | none => simp [hdec]
  | some t =>
    obtain ⟨N, r, p, saltB, digB⟩ := t
    simp only [hdec, Option.some.injEq, Prod.mk.injEq]
    cases hscr : scrypt prf pw saltB N r p DIGESTBYTES with
    | error e =>
      constructor
      · intro h
        exact absurd h (by simp)
      · rintro ⟨N2, r2, p2, s2, d2, ⟨rfl, rfl, rfl, rfl, rfl⟩, h2⟩
        rw [hscr] at h2
        exact absurd h2 (by simp)
    | ok d =>
      rw [ctCompare_eq_true_iff]
      constructor
      · rintro rfl
        exact ⟨N, r, p, saltB, d, by simp, hscr⟩
      · rintro ⟨N2, r2, p2, s2, d2, ⟨rfl, rfl, rfl, rfl, rfl⟩, h2⟩
        rw [hscr] at h2
        exact Except.ok.inj h2

theorem scryptParamsOk_spec (N r p outlen : Nat) (h : scryptParamsOk N r p outlen = true) :
    2 ≤ N ∧ N = 2 ^ log2f N ∧ r * p < 2 ^ 30 ∧ 0 < outlen := by
  unfold scryptParamsOk at h
  simp only [Bool.and_eq_true, decide_eq_true_eq, beq_iff_eq] at h
  exact ⟨h.1.1.1, h.1.1.2, h.1.2, h.2⟩

/-- C1: for every password (including the empty one), every well-formed
salt and all cost limits under which the native pwhash succeeds, verifying
the freshly produced verifier with the same password succeeds. -/
theorem pwhash_verify_pwhash (prf : List Nat → List Nat → List Nat)
    (pw salt : List Nat) (ops mem : Nat)
    (hs : salt.length = SALTBYTES) (hsb : bytesOk salt)
    (hv : strLimitsOk ops mem = true) :
    ∃ h, pwhash prf pw salt ops mem = some h ∧ pwhash_verify prf h pw = true := by
  rcases hPeq : pickparams ops mem with ⟨N, r, p⟩
  unfold strLimitsOk at hv
  rw [hPeq] at hv
  dsimp only at hv
  rw [Bool.and_eq_true] at hv
  obtain ⟨hok, hlog⟩ := hv
  have hlog2 : log2f N < 64 := of_decide_eq_true hlog
  obtain ⟨hN2, hNpow, hrp, _⟩ := scryptParamsOk_spec _ _ _ _ hok
  have hr8 : r = 8 := by
    have := congrArg (fun t => t.2.1) hPeq
    simpa [pickparams] using this.symm
  have hplt : p < 2 ^ 30 := by
    rw [hr8] at hrp
    omega
  have hrlt : r < 2 ^ 30 := by omega
  set d := scryptRun prf pw salt N r p DIGESTBYTES with hd_def
  have hscr : scrypt prf pw salt N r p DIGESTBYTES = Except.ok d := by
    unfold scrypt
    rw [hok]
    simp [hd_def]
  have hdl : d.length = 32 := by
    rw [hd_def, scryptRun_length]
    rfl
  have hdb : bytesOk d := scryptRun_bytesOk _ _ _ _ _ _ _
  have hslen : salt.length = 32 := hs
  have hdec : decodeVerifier (encodeVerifier N r p salt d) = some (N, r, p, salt, d) := by
    rw [hNpow]
    exact decodeVerifier_encodeVerifier (log2f N) r p salt d hlog2 hrlt hplt hslen hsb hdl hdb
  refine ⟨encodeVerifier N r p salt d, ?_, ?_⟩
  · simp only [pwhash, hPeq]
    rw [if_pos hlog2, hscr]
  · simp only [pwhash_verify, hdec, hscr]
    rw [ctCompare_eq_true_iff]

theorem pwhash_verify_pwhash_witness :
    ((List.replicate 32 0 : List Nat).length = SALTBYTES ∧
      bytesOk (List.replicate 32 0) ∧ strLimitsOk 64 2048 = true) ∧
      ∃ h, pwhash trivPrf [] (List.replicate 32 0) 64 2048 = some h ∧
        pwhash_verify trivPrf h [] = true :=
  ⟨⟨by decide, by decide, by decide⟩,
    pwhash_verify_pwhash trivPrf [] (List.replicate 32 0) 64 2048
      (by decide) (by decide) (by decide)⟩

theorem encA_mem_bounds (bs : List Nat) : ∀ c ∈ encA bs, 0 < c ∧ c < 128 := by
  intro c hc
  obtain ⟨v, _, rfl⟩ := List.mem_map.1 hc
  exact itoa64get_bounds_all v

theorem enc30_mem_bounds (x : Nat) : ∀ c ∈ enc30 x, 0 < c ∧ c < 128 := by
  intro c hc
  obtain ⟨v, _, rfl⟩ := List.mem_map.1 hc
  exact itoa64get_bounds_all _

/-- C7: every verifier produced by pwhash is a buffer of exactly STRBYTES
bytes that ends in the null terminator, and every byte before the
terminator is a nonzero ASCII character. -/
theorem pwhash_string_ascii (prf : List Nat → List Nat → List Nat)
    (pw salt : List Nat) (ops mem : Nat)
    (hs : salt.length = SALTBYTES) (hsb : bytesOk salt)
    (hv : strLimitsOk ops mem = true) :
    ∃ h body, pwhash prf pw salt ops mem = some h ∧ h.length = STRBYTES ∧
      h = body ++ [0] ∧ ∀ c ∈ body, 0 < c ∧ c < 128 := by
  rcases hPeq : pickparams ops mem with ⟨N, r, p⟩
  unfold strLimitsOk at hv
  rw [hPeq] at hv
  dsimp only at hv
  rw [Bool.and_eq_true] at hv
  obtain ⟨hok, hlog⟩ := hv
  have hlog2 : log2f N < 64 := of_decide_eq_true hlog
  obtain ⟨hN2, hNpow, hrp, _⟩ := scryptParamsOk_spec _ _ _ _ hok
  set d := scryptRun prf pw salt N r p DIGESTBYTES with hd_def
  have hscr : scrypt prf pw salt N r p DIGESTBYTES = Except.ok d := by
    unfold scrypt
    rw [hok]
    simp [hd_def]
  have hdl : d.length = 32 := by
    rw [hd_def, scryptRun_length]
    rfl
  have hslen : salt.length = 32 := hs
  have hnorm : encodeVerifier N r p salt d =
      36 :: 55 :: 36 :: itoa64get (log2f N) ::
        (enc30 r ++ (enc30 p ++ (encA salt ++ (36 :: (encA d ++ [0]))))) := by
    conv_lhs => rw [hNpow]
    rw [encodeVerifier_normal (log2f N) r p salt d hslen hdl]
  refine ⟨encodeVerifier N r p salt d,
    36 :: 55 :: 36 :: itoa64get (log2f N) ::
      (enc30 r ++ (enc30 p ++ (encA salt ++ (36 :: encA d)))), ?_, ?_, ?_, ?_⟩
  · simp only [pwhash, hPeq]
    rw [if_pos hlog2, hscr]
  · rw [hnorm]
    simp [enc30_length, encA_length salt hslen, encA_length d hdl, STRBYTES]
  · rw [hnorm]
    simp [List.append_assoc]
  · intro c hc
    simp only [List.mem_cons, List.mem_append] at hc
    rcases hc with rfl | rfl | rfl | rfl | hc | hc | hc | rfl | hc
    · omega
    · omega
    · omega
    · exact itoa64get_bounds_all _
    · exact enc30_mem_bounds r c hc
    · exact enc30_mem_bounds p c hc
    · exact encA_mem_bounds salt c hc
    · omega
    · exact encA_mem_bounds d c hc

theorem pwhash_string_ascii_witness :
    ((List.replicate 32 1 : List Nat).length = SALTBYTES ∧
      bytesOk (List.replicate 32 1) ∧ strLimitsOk 100 4096 = true) ∧
      ∃ h body, pwhash trivPrf [5] (List.replicate 32 1) 100 4096 = some h ∧
        h.length = STRBYTES ∧ h = body ++ [0] ∧ ∀ c ∈ body, 0 < c ∧ c < 128 :=
  ⟨⟨by decide, by decide, by decide⟩,
    pwhash_string_ascii trivPrf [5] (List.replicate 32 1) 100 4096
      (by decide) (by decide) (by decide)⟩

/-! ### gen_salt and the external random source -/

/-- The external random source filling a buffer of the given length,
modelled as an explicit byte stream (spec section 6). -/
def randombytes_into (rnd : Nat → Nat) (len : Nat) : List Nat :=
  (List.range len).map (fun i => rnd i % 256)

/-- The `gen_salt` entry point of the Rust source: a zeroed SALTBYTES
buffer filled from the external random source. -/
def gen_salt (rnd : Nat → Nat) : List Nat := randombytes_into rnd SALTBYTES

/-- C9: gen_salt returns exactly SALTBYTES bytes drawn from the external
random source; two calls whose random draws differ anywhere in the salt
yield different salts; and a generated salt is a valid input to
derive_key: with it, derive_key succeeds whenever the picked cost
parameters pass the engine validation. -/
theorem gen_salt_spec (rnd₁ rnd₂ : Nat → Nat)
    (hdiff : ∃ i, i < SALTBYTES ∧ rnd₁ i % 256 ≠ rnd₂ i % 256) :
    (gen_salt rnd₁).length = SALTBYTES ∧ bytesOk (gen_salt rnd₁) ∧
      (∀ i, i < SALTBYTES → (gen_salt rnd₁)[i]? = some (rnd₁ i % 256)) ∧
      gen_salt rnd₁ ≠ gen_salt rnd₂ ∧
      (∀ prf keylen pw ops mem,
        scryptParamsOk (pickparams ops mem).1 (pickparams ops mem).2.1
          (pickparams ops mem).2.2 keylen = true →
        (derive_key prf keylen pw (gen_salt rnd₁) ops mem).isSome = true) := by
  have hget : ∀ (rnd : Nat → Nat) i, i < SALTBYTES →
      (gen_salt rnd)[i]? = some (rnd i % 256) := by
    intro rnd i hi
    unfold gen_salt randombytes_into
    rw [List.getElem?_map, List.getElem?_range hi]
    rfl
  refine ⟨by simp [gen_salt, randombytes_into], ?_, hget rnd₁, ?_, ?_⟩
  · intro b hb
    obtain ⟨i, _, rfl⟩ := List.mem_map.1 hb
    exact Nat.mod_lt _ (by omega)
  · obtain ⟨i, hi, hne⟩ := hdiff
    intro heq
    have h1 := hget rnd₁ i hi
    have h2 := hget rnd₂ i hi
    rw [heq, h2] at h1
    exact hne (Option.some.inj h1).symm
  · intro prf keylen pw ops mem hvp
    rcases hPeq : pickparams ops mem with ⟨N, r, p⟩
    rw [hPeq] at hvp
    dsimp only at hvp
    simp only [derive_key, hPeq]
    unfold scrypt
    rw [hvp]
    simp

theorem gen_salt_spec_witness :
    (∃ i, i < SALTBYTES ∧ (fun i => i) i % 256 ≠ (fun _ => 0) i % 256) ∧
      ((gen_salt (fun i => i)).length = SALTBYTES ∧ bytesOk (gen_salt (fun i => i)) ∧
        (∀ i, i < SALTBYTES → (gen_salt (fun i => i))[i]? = some ((fun i => i) i % 256)) ∧
        gen_salt (fun i => i) ≠ gen_salt (fun _ => 0) ∧
        (∀ prf keylen pw ops mem,
          scryptParamsOk (pickparams ops mem).1 (pickparams ops mem).2.1
            (pickparams ops mem).2.2 keylen = true →
          (derive_key prf keylen pw (gen_salt (fun i => i)) ops mem).isSome = true)) :=
  ⟨⟨1, by decide⟩, gen_salt_spec (fun i => i) (fun _ => 0) ⟨1, by decide⟩⟩

/-! ### The generic hash wrapper (`hash_module` macro) -/

/-- The `hash` function of the `hash_module` macro body: a zeroed buffer
of HASHBYTES bytes filled by the external hash primitive (the macro
parameter), returned as the digest.  The primitive is an external
collaborator, taken as a function parameter; its output is coerced to
bytes and to the fixed digest width exactly as the native code writes
into the fixed-size buffer. -/
def hash (hashbytes : Nat) (core : List Nat → List Nat) (m : List Nat) : List Nat :=
  ((core m).map (· % 256) ++ List.replicate hashbytes 0).take hashbytes

/-- C10: for every message, including the empty one, hash returns a digest
of exactly HASHBYTES well-formed bytes; as a total function it has no
error or panic path. -/
theorem hash_total (hashbytes : Nat) (core : List Nat → List Nat) (m : List Nat) :
    (hash hashbytes core m).length = hashbytes ∧ bytesOk (hash hashbytes core m) := by
  constructor
  · simp [hash]
  · intro b hb
    have := List.mem_of_mem_take hb
    rcases List.mem_append.1 this with h | h
    · obtain ⟨a, _, rfl⟩ := List.mem_map.1 h
      exact Nat.mod_lt _ (by omega)
    · have := List.eq_of_mem_replicate h
      omega

end Sodium
